import Mathlib

/-!
Verification of `helix-loader/src/projects.rs` (repository scanner and
project-list helpers) against its natural-language specification.

The filesystem is shallowly embedded: an absolute path is its list of
components, and a directory tree is an inductive value recording, for each
directory, the outcome of listing it (`DirStatus`) and its entries in the
order the platform iterator yields them.  Symbolic links are opaque entries:
the scanner never follows or inspects them, so their targets play no role in
the traversal and are not modelled.  `std::fs::canonicalize` is modelled as
an arbitrary partial function `canon : FsPath → Option FsPath`; the code's
`canonicalize().unwrap_or_else(|_| path)` idiom is `canonOr`.  Because the
walk starts from the canonicalized root and only ever descends into
non-symlink directory entries, every path the walk visits is already in
canonical form; `canonSound` captures exactly this fact and is assumed where
a theorem needs it.
-/

namespace HelixProjects

/-- An absolute filesystem path, as its list of components.  `[]` is the
filesystem root `/`. -/
abbrev FsPath := List String

/-- The version-control marker directory name. -/
def gitMarker : String := ".git"

/-- Outcome of `std::fs::read_dir` on a directory: success, permission
denied, or any other I/O error. -/
inductive DirStatus where
  | ok : DirStatus
  | permDenied : DirStatus
  | otherErr : DirStatus
deriving DecidableEq, Repr

/-- A directory listing, in platform iteration order.  `fail` is an entry
whose `DirEntry` handle cannot be materialized (the `entry?` in the loop
fails).  A `symlink` entry is opaque: the scanner skips it without looking
at its target. -/
inductive Entries where
  | nil : Entries
  | fail (rest : Entries) : Entries
  | file (name : String) (rest : Entries) : Entries
  | symlink (name : String) (rest : Entries) : Entries
  | dir (name : String) (status : DirStatus) (sub : Entries) (rest : Entries) : Entries
deriving DecidableEq, Repr

/-- The filesystem object found at the (canonicalized) root argument. -/
inductive Node where
  | file : Node
  | symlink : Node
  | dir (status : DirStatus) (entries : Entries) : Node
deriving DecidableEq, Repr

/-- Rust `Path::is_dir` for the objects the scanner stats (never symlinks). -/
def Node.isDir : Node → Bool
  | .dir _ _ => true
  | _ => false

/-- Rust `Path::file_name`: the last component (`None` for `/`). -/
def fileName (p : FsPath) : Option String := p.getLast?

/-- Rust `Path::parent`: drop the last component (`None` for `/`). -/
def parentPath : FsPath → Option FsPath
  | [] => none
  | p => some p.dropLast

/-- The `canonicalize().unwrap_or_else(|_| path)` idiom: canonical form on
success, the path as given on failure. -/
def canonOr (canon : FsPath → Option FsPath) (p : FsPath) : FsPath :=
  (canon p).getD p

/-- Canonicalization is the identity wherever it succeeds.  This holds for
every path the walk visits: the walk starts from the canonicalized root and
extends paths only by non-symlink directory entries, so visited paths are
already canonical. -/
def canonSound (canon : FsPath → Option FsPath) : Prop :=
  ∀ p, canon p = none ∨ canon p = some p

/-- `HashSet::insert` on the accumulator of discovered repository roots. -/
def insertRepo (p : FsPath) (repos : List FsPath) : List FsPath :=
  if p ∈ repos then repos else p :: repos

/-- Errors of the scan, each naming the offending path, mirroring the
`with_context` messages in the source. -/
inductive ScanError where
  | rootCanon (root : FsPath) : ScanError
  | readDirErr (dir : FsPath) : ScanError
  | entryErr (dir : FsPath) : ScanError
deriving DecidableEq, Repr

/-- The containment check of `scan_directory`: the current (canonical) path
is strictly inside some already-discovered repository root. -/
def insideRepo (cc : FsPath) (repos : List FsPath) : Bool :=
  repos.any fun r => r.isPrefixOf cc && cc != r

/-- The entry loop of `scan_directory`, with the recursive call for a
directory entry inlined.  `current` is the directory being listed, `es` its
remaining entries.  For a directory entry `name`, the child path is
`current ++ [name]`; it is nonempty, so the `current.parent()` of the marker
branch always exists and equals `current`. -/
def scanEntries (canon : FsPath → Option FsPath) (current : FsPath)
    (es : Entries) (repos : List FsPath) : Except ScanError (List FsPath) :=
  match es with
  | .nil => .ok repos
  | .fail _ => .error (.entryErr current)
  | .file _ rest => scanEntries canon current rest repos
  | .symlink _ rest => scanEntries canon current rest repos
  | .dir name status sub rest =>
    let path := current ++ [name]
    let step : Except ScanError (List FsPath) :=
      if fileName path == some gitMarker then
        -- marker branch: insert the canonicalized parent and do not descend
        .ok (insertRepo (canonOr canon path.dropLast) repos)
      else if insideRepo (canonOr canon path) repos then
        -- containment branch: already inside a discovered repository
        .ok repos
      else
        match status with
        | .ok => scanEntries canon path sub repos
        | .permDenied => .ok repos
        | .otherErr => .error (.readDirErr path)
    match step with
    | .error e => .error e
    | .ok repos2 => scanEntries canon current rest repos2

/-- The part of Rust `scan_directory` after the marker block: containment
check, then the directory read.  `read_dir` on a non-directory fails with a
non-permission error; a canonical root is never a symlink, so the symlink
case is likewise modelled as a read failure. -/
def scanUnder (canon : FsPath → Option FsPath) (current : FsPath)
    (node : Node) (repos : List FsPath) : Except ScanError (List FsPath) :=
  if insideRepo (canonOr canon current) repos then .ok repos
  else
    match node with
    | .dir .ok entries => scanEntries canon current entries repos
    | .dir .permDenied _ => .ok repos
    | _ => .error (.readDirErr current)

/-- Rust `scan_directory` for the root invocation: marker check (inserting
the canonicalized parent and stopping, when the parent exists), then
`scanUnder`. -/
def scan_directory (canon : FsPath → Option FsPath) (current : FsPath)
    (node : Node) (repos : List FsPath) : Except ScanError (List FsPath) :=
  if fileName current == some gitMarker && node.isDir then
    match parentPath current with
    | some repoRoot => .ok (insertRepo (canonOr canon repoRoot) repos)
    | none => scanUnder canon current node repos
  else
    scanUnder canon current node repos

/-- Strict lexicographic comparison of two component names, character by
character (the order `Ord` on path components induces). -/
def charsLtB : List Char → List Char → Bool
  | _, [] => false
  | [], _ :: _ => true
  | c :: cs, d :: ds => if c = d then charsLtB cs ds else decide (c < d)

/-- Strict order on component names. -/
def strLtB (a b : String) : Bool := charsLtB a.data b.data

/-- Component-wise lexicographic order on paths, mirroring `Ord` on
`PathBuf` (compare components left to right). -/
def pathLeB : FsPath → FsPath → Bool
  | [], _ => true
  | _ :: _, [] => false
  | a :: as, b :: bs => if a = b then pathLeB as bs else strLtB a b

/-- The relation `repos.sort()` sorts by. -/
def pathLe (p q : FsPath) : Prop := pathLeB p q = true

instance : DecidableRel pathLe := fun p q => by
  unfold pathLe; infer_instance

/-- `Vec::sort` on the collected repository roots. -/
def sortPaths (l : List FsPath) : List FsPath := List.insertionSort pathLe l

/-- Rust `scan_git_repositories`: canonicalize the root (failing with an
error naming it), run the walk from the canonical root with an empty
accumulator, and return the sorted result.  `node` is the filesystem object
at the canonical root path. -/
def scan_git_repositories (canon : FsPath → Option FsPath) (rootArg : FsPath)
    (node : Node) : Except ScanError (List FsPath) :=
  match canon rootArg with
  | none => .error (.rootCanon rootArg)
  | some root => (scan_directory canon root node []).map sortPaths

/-! Basic lemmas about the path helpers and the accumulator. -/

theorem fileName_append (l : FsPath) (a : String) : fileName (l ++ [a]) = some a :=
  List.getLast?_concat l

theorem dropLast_append (l : FsPath) (a : String) : (l ++ [a]).dropLast = l :=
  List.dropLast_concat

theorem parentPath_append (l : FsPath) (a : String) : parentPath (l ++ [a]) = some l := by
  cases l with
  | nil => rfl
  | cons x xs =>
    show some ((x :: (xs ++ [a])).dropLast) = some (x :: xs)
    rw [← List.cons_append, dropLast_append]

theorem canonOr_eq {canon : FsPath → Option FsPath} (h : canonSound canon) (p : FsPath) :
    canonOr canon p = p := by
  rcases h p with h1 | h1 <;> simp [canonOr, h1]

theorem mem_insertRepo {p q : FsPath} {repos : List FsPath} :
    q ∈ insertRepo p repos ↔ q = p ∨ q ∈ repos := by
  unfold insertRepo
  split_ifs with h
  · constructor
    · exact fun hq => Or.inr hq
    · rintro (rfl | hq)
      · exact h
      · exact hq
  · simp [List.mem_cons]

theorem insertRepo_nodup {p : FsPath} {repos : List FsPath} (h : repos.Nodup) :
    (insertRepo p repos).Nodup := by
  unfold insertRepo
  split_ifs with hp
  · exact h
  · exact List.nodup_cons.mpr ⟨hp, h⟩

theorem insideRepo_eq_false {cc : FsPath} {repos : List FsPath} :
    insideRepo cc repos = false ↔ ∀ r ∈ repos, ¬ (r <+: cc ∧ cc ≠ r) := by
  unfold insideRepo
  simp [List.any_eq_false, List.isPrefixOf_iff_prefix, not_and_or]

theorem insideRepo_eq_true {cc : FsPath} {repos : List FsPath} :
    insideRepo cc repos = true ↔ ∃ r ∈ repos, r <+: cc ∧ cc ≠ r := by
  unfold insideRepo
  simp [List.any_eq_true, List.isPrefixOf_iff_prefix]

/-! Unfolding equations for `scanEntries`, one per entry shape. -/

theorem scanEntries_nil {canon current repos} :
    scanEntries canon current .nil repos = .ok repos := rfl

theorem scanEntries_fail {canon current rest repos} :
    scanEntries canon current (.fail rest) repos = .error (.entryErr current) := rfl

theorem scanEntries_file {canon current n rest repos} :
    scanEntries canon current (.file n rest) repos = scanEntries canon current rest repos := rfl

theorem scanEntries_symlink {canon current n rest repos} :
    scanEntries canon current (.symlink n rest) repos = scanEntries canon current rest repos := rfl

theorem scanEntries_dir_git {canon current status sub rest repos} {name : String}
    (h : name = gitMarker) :
    scanEntries canon current (.dir name status sub rest) repos =
      scanEntries canon current rest (insertRepo (canonOr canon current) repos) := by
  subst h
  simp [scanEntries, fileName_append, dropLast_append]

theorem scanEntries_dir_inside {canon current status sub rest repos} {name : String}
    (h : name ≠ gitMarker) (h2 : insideRepo (canonOr canon (current ++ [name])) repos = true) :
    scanEntries canon current (.dir name status sub rest) repos =
      scanEntries canon current rest repos := by
  simp [scanEntries, fileName_append, h, h2]

theorem scanEntries_dir_ok {canon current sub rest repos} {name : String}
    (h : name ≠ gitMarker) (h2 : insideRepo (canonOr canon (current ++ [name])) repos = false) :
    scanEntries canon current (.dir name .ok sub rest) repos =
      match scanEntries canon (current ++ [name]) sub repos with
      | .error e => .error e
      | .ok repos2 => scanEntries canon current rest repos2 := by
  simp [scanEntries, fileName_append, h, h2]

theorem scanEntries_dir_permDenied {canon current sub rest repos} {name : String}
    (h : name ≠ gitMarker) (h2 : insideRepo (canonOr canon (current ++ [name])) repos = false) :
    scanEntries canon current (.dir name .permDenied sub rest) repos =
      scanEntries canon current rest repos := by
  simp [scanEntries, fileName_append, h, h2]

theorem scanEntries_dir_otherErr {canon current sub rest repos} {name : String}
    (h : name ≠ gitMarker) (h2 : insideRepo (canonOr canon (current ++ [name])) repos = false) :
    scanEntries canon current (.dir name .otherErr sub rest) repos =
      .error (.readDirErr (current ++ [name])) := by
  simp [scanEntries, fileName_append, h, h2]

/-! The order `repos.sort()` uses, and facts about `sortPaths`. -/

theorem charsLtB_irrefl : ∀ cs : List Char, charsLtB cs cs = false
  | [] => rfl
  | c :: cs => by simp only [charsLtB, if_pos rfl]; exact charsLtB_irrefl cs

theorem charsLtB_total : ∀ {a b : List Char}, a ≠ b →
    charsLtB a b = true ∨ charsLtB b a = true
  | [], [], h => absurd rfl h
  | [], _ :: _, _ => Or.inl rfl
  | _ :: _, [], _ => Or.inr rfl
  | c :: cs, d :: ds, h => by
    by_cases hcd : c = d
    · subst hcd
      have hne : cs ≠ ds := fun he => h (by rw [he])
      rcases charsLtB_total hne with h1 | h1
      · exact Or.inl (by simp only [charsLtB, if_pos rfl]; exact h1)
      · exact Or.inr (by simp only [charsLtB, if_pos rfl]; exact h1)
    · rcases lt_or_gt_of_ne hcd with h1 | h1
      · exact Or.inl (by simp only [charsLtB, if_neg hcd]; exact decide_eq_true h1)
      · exact Or.inr (by simp only [charsLtB, if_neg (Ne.symm hcd)]; exact decide_eq_true h1)

theorem charsLtB_trans : ∀ {a b c : List Char},
    charsLtB a b = true → charsLtB b c = true → charsLtB a c = true
  | _, [], _, h1, _ => by simp [charsLtB] at h1
  | _, _ :: _, [], _, h2 => by simp [charsLtB] at h2
  | [], _ :: _, _ :: _, _, _ => rfl
  | x :: xs, d :: ds, e :: es, h1, h2 => by
    by_cases hxd : x = d <;> by_cases hde : d = e
    · subst hxd; subst hde
      simp only [charsLtB, if_pos rfl] at h1 h2 ⊢
      exact charsLtB_trans h1 h2
    · subst hxd
      simp only [charsLtB, if_pos rfl] at h1
      simp only [charsLtB, if_neg hde] at h2 ⊢
      exact h2
    · subst hde
      simp only [charsLtB, if_neg hxd] at h1 ⊢
      exact h1
    · simp only [charsLtB, if_neg hxd] at h1
      simp only [charsLtB, if_neg hde] at h2
      have hlt : x < e := lt_trans (of_decide_eq_true h1) (of_decide_eq_true h2)
      simp only [charsLtB, if_neg (ne_of_lt hlt)]
      exact decide_eq_true hlt

theorem stringDataInj {a b : String} (h : a.data = b.data) : a = b := by
  cases a with
  | mk l1 =>
    cases b with
    | mk l2 => exact congrArg String.mk h

theorem strLtB_irrefl (a : String) : strLtB a a = false := charsLtB_irrefl a.data

theorem strLtB_total {a b : String} (h : a ≠ b) : strLtB a b = true ∨ strLtB b a = true :=
  charsLtB_total fun he => h (stringDataInj he)

theorem strLtB_trans {a b c : String} (h1 : strLtB a b = true) (h2 : strLtB b c = true) :
    strLtB a c = true := charsLtB_trans h1 h2

theorem pathLeB_total : ∀ p q : FsPath, pathLeB p q = true ∨ pathLeB q p = true
  | [], _ => Or.inl rfl
  | _ :: _, [] => Or.inr rfl
  | a :: as, b :: bs => by
    by_cases hab : a = b
    · subst hab
      rcases pathLeB_total as bs with h | h
      · exact Or.inl (by simp only [pathLeB, if_pos rfl]; exact h)
      · exact Or.inr (by simp only [pathLeB, if_pos rfl]; exact h)
    · rcases strLtB_total hab with h | h
      · exact Or.inl (by simp only [pathLeB, if_neg hab]; exact h)
      · exact Or.inr (by simp only [pathLeB, if_neg (Ne.symm hab)]; exact h)

theorem pathLeB_trans : ∀ {p q r : FsPath},
    pathLeB p q = true → pathLeB q r = true → pathLeB p r = true
  | [], _, _, _, _ => rfl
  | _ :: _, [], _, h1, _ => by simp [pathLeB] at h1
  | _ :: _, _ :: _, [], _, h2 => by simp [pathLeB] at h2
  | a :: as, b :: bs, c :: cs, h1, h2 => by
    by_cases hab : a = b <;> by_cases hbc : b = c
    · subst hab; subst hbc
      simp only [pathLeB, if_pos rfl] at h1 h2 ⊢
      exact pathLeB_trans h1 h2
    · subst hab
      simp only [pathLeB, if_pos rfl] at h1
      simp only [pathLeB, if_neg hbc] at h2 ⊢
      exact h2
    · subst hbc
      simp only [pathLeB, if_neg hab] at h1 ⊢
      exact h1
    · simp only [pathLeB, if_neg hab] at h1
      simp only [pathLeB, if_neg hbc] at h2
      have hac : a ≠ c := by
        intro he
        subst he
        have haa := strLtB_trans h1 h2
        rw [strLtB_irrefl] at haa
        exact Bool.noConfusion haa
      simp only [pathLeB, if_neg hac]
      exact strLtB_trans h1 h2

instance : IsTotal FsPath pathLe := ⟨fun p q => pathLeB_total p q⟩

instance : IsTrans FsPath pathLe := ⟨fun _ _ _ h1 h2 => pathLeB_trans h1 h2⟩

theorem sortPaths_sorted (l : List FsPath) : List.Sorted pathLe (sortPaths l) :=
  List.sorted_insertionSort pathLe l

theorem mem_sortPaths {p : FsPath} {l : List FsPath} : p ∈ sortPaths l ↔ p ∈ l :=
  (List.perm_insertionSort pathLe l).mem_iff

theorem sortPaths_nodup {l : List FsPath} (h : l.Nodup) : (sortPaths l).Nodup :=
  ((List.perm_insertionSort pathLe l).nodup_iff).mpr h

/-- Identity canonicalization, used to instantiate theorems at concrete
trees whose paths are already canonical. -/
def canonId : FsPath → Option FsPath := fun p => some p

theorem canonId_sound : canonSound canonId := fun _ => Or.inr rfl

/-- C4: a root argument that fails to resolve makes `scan_git_repositories`
return an error naming that root, and no repository roots are returned. -/
theorem scan_root_canon_error {canon : FsPath → Option FsPath} {rootArg : FsPath}
    {node : Node} (h : canon rootArg = none) :
    scan_git_repositories canon rootArg node = .error (.rootCanon rootArg) ∧
      ∀ res, scan_git_repositories canon rootArg node ≠ .ok res := by
  have heq : scan_git_repositories canon rootArg node = .error (.rootCanon rootArg) := by
    unfold scan_git_repositories
    rw [h]
  exact ⟨heq, fun res hres => by rw [heq] at hres; exact Except.noConfusion hres⟩

theorem scan_root_canon_error_witness :
    scan_git_repositories (fun _ => none) ["missing"] (Node.dir .ok .nil) =
      .error (.rootCanon ["missing"]) :=
  (scan_root_canon_error rfl).1

/-! Canonicalization failures inside the walk are absorbed: the walk behaves
exactly as if it used the total helper that returns the original path on
failure. -/

/-- The total best-effort canonicalization helper described in the spec's
design notes: the canonical form on success, the original path unchanged on
failure.  It never fails. -/
def totalCanon (canon : FsPath → Option FsPath) : FsPath → Option FsPath :=
  fun p => some (canonOr canon p)

theorem canonOr_totalCanon (canon : FsPath → Option FsPath) (p : FsPath) :
    canonOr (totalCanon canon) p = canonOr canon p := rfl

theorem scanEntries_totalCanon (canon : FsPath → Option FsPath) :
    ∀ (es : Entries) (current : FsPath) (repos : List FsPath),
      scanEntries (totalCanon canon) current es repos = scanEntries canon current es repos := by
  intro es
  induction es with
  | nil => intro current repos; rfl
  | fail rest ih => intro current repos; rfl
  | file n rest ih => intro current repos; exact ih current repos
  | symlink n rest ih => intro current repos; exact ih current repos
  | dir name status sub rest ihsub ihrest =>
    intro current repos
    by_cases hname : name = gitMarker
    · rw [@scanEntries_dir_git (totalCanon canon) current status sub rest repos name hname,
        scanEntries_dir_git hname, canonOr_totalCanon, ihrest]
    · cases hin : insideRepo (canonOr canon (current ++ [name])) repos with
      | true =>
        rw [@scanEntries_dir_inside (totalCanon canon) current status sub rest repos name
            hname hin,
          scanEntries_dir_inside hname hin, ihrest]
      | false =>
        cases status with
        | ok =>
          rw [@scanEntries_dir_ok (totalCanon canon) current sub rest repos name hname hin,
            scanEntries_dir_ok hname hin, ihsub]
          cases scanEntries canon (current ++ [name]) sub repos with
          | error e => rfl
          | ok repos2 => exact ihrest current repos2
        | permDenied =>
          rw [@scanEntries_dir_permDenied (totalCanon canon) current sub rest repos name
              hname hin,
            scanEntries_dir_permDenied hname hin, ihrest]
        | otherErr =>
          rw [@scanEntries_dir_otherErr (totalCanon canon) current sub rest repos name
              hname hin,
            scanEntries_dir_otherErr hname hin]

theorem scanUnder_totalCanon (canon : FsPath → Option FsPath) (current : FsPath)
    (node : Node) (repos : List FsPath) :
    scanUnder (totalCanon canon) current node repos = scanUnder canon current node repos := by
  unfold scanUnder
  rw [canonOr_totalCanon]
  cases node with
  | file => rfl
  | symlink => rfl
  | dir status entries => cases status <;> simp [scanEntries_totalCanon]

theorem scan_directory_totalCanon (canon : FsPath → Option FsPath) (current : FsPath)
    (node : Node) (repos : List FsPath) :
    scan_directory (totalCanon canon) current node repos =
      scan_directory canon current node repos := by
  unfold scan_directory
  cases hpc : parentPath current <;>
    split_ifs <;> simp [hpc, scanUnder_totalCanon, canonOr_totalCanon]

/-- C7: for every directory visited during the walk (everything below the
root invocation handled by `scan_git_repositories`), canonicalization
failure never aborts or errors the scan.  The walk is exactly equivalent to
the walk using the total helper `totalCanon canon` that returns the path as
given when canonicalization fails — so the raw path is what is used both in
the containment comparison and as the inserted repository-root value. -/
theorem scan_canon_fallback_refinement :
    (∀ (canon : FsPath → Option FsPath) (current : FsPath) (node : Node)
        (repos : List FsPath),
        scan_directory canon current node repos =
          scan_directory (totalCanon canon) current node repos) ∧
    (∀ (canon : FsPath → Option FsPath) (current : FsPath) (es : Entries)
        (repos : List FsPath),
        scanEntries canon current es repos =
          scanEntries (totalCanon canon) current es repos) :=
  ⟨fun canon current node repos => (scan_directory_totalCanon canon current node repos).symm,
   fun canon current es repos => (scanEntries_totalCanon canon es current repos).symm⟩

/-! Unfolding equations for `scan_git_repositories`. -/

theorem scan_git_repositories_none {canon : FsPath → Option FsPath} {rootArg : FsPath}
    {node : Node} (hc : canon rootArg = none) :
    scan_git_repositories canon rootArg node = .error (.rootCanon rootArg) := by
  unfold scan_git_repositories
  rw [hc]

theorem scan_git_repositories_some {canon : FsPath → Option FsPath} {rootArg root : FsPath}
    {node : Node} (hc : canon rootArg = some root) :
    scan_git_repositories canon rootArg node =
      Except.map sortPaths (scan_directory canon root node []) := by
  unfold scan_git_repositories
  rw [hc]

/-! Monotonicity of the accumulator: the walk only ever inserts. -/

theorem scanEntries_mono {canon : FsPath → Option FsPath} :
    ∀ (es : Entries) (current : FsPath) (repos res : List FsPath),
      scanEntries canon current es repos = .ok res → ∀ p ∈ repos, p ∈ res := by
  intro es
  induction es with
  | nil =>
    intro current repos res h p hp
    injection h with h
    exact h ▸ hp
  | fail rest ih => intro current repos res h p hp; simp [scanEntries_fail] at h
  | file n rest ih =>
    intro current repos res h p hp
    exact ih current repos res h p hp
  | symlink n rest ih =>
    intro current repos res h p hp
    exact ih current repos res h p hp
  | dir name status sub rest ihsub ihrest =>
    intro current repos res h p hp
    by_cases hname : name = gitMarker
    · rw [scanEntries_dir_git hname] at h
      exact ihrest current _ res h p (mem_insertRepo.mpr (Or.inr hp))
    · cases hin : insideRepo (canonOr canon (current ++ [name])) repos with
      | true =>
        rw [scanEntries_dir_inside hname hin] at h
        exact ihrest current repos res h p hp
      | false =>
        cases status with
        | ok =>
          rw [scanEntries_dir_ok hname hin] at h
          cases hsub : scanEntries canon (current ++ [name]) sub repos with
          | error e => rw [hsub] at h; exact absurd h (by simp)
          | ok repos2 =>
            rw [hsub] at h
            exact ihrest current repos2 res h p (ihsub _ repos repos2 hsub p hp)
        | permDenied =>
          rw [scanEntries_dir_permDenied hname hin] at h
          exact ihrest current repos res h p hp
        | otherErr =>
          rw [scanEntries_dir_otherErr hname hin] at h
          exact absurd h (by simp)

theorem scanUnder_mono {canon : FsPath → Option FsPath} {current : FsPath} {node : Node}
    {repos res : List FsPath} (h : scanUnder canon current node repos = .ok res) :
    ∀ p ∈ repos, p ∈ res := by
  unfold scanUnder at h
  split_ifs at h
  · injection h with h; exact fun p hp => h ▸ hp
  · cases node with
    | file => exact absurd h (by simp)
    | symlink => exact absurd h (by simp)
    | dir status entries =>
      cases status with
      | ok => exact scanEntries_mono entries current repos res h
      | permDenied => injection h with h; exact fun p hp => h ▸ hp
      | otherErr => exact absurd h (by simp)

theorem scan_directory_mono {canon : FsPath → Option FsPath} {current : FsPath}
    {node : Node} {repos res : List FsPath}
    (h : scan_directory canon current node repos = .ok res) : ∀ p ∈ repos, p ∈ res := by
  unfold scan_directory at h
  split_ifs at h
  · cases hpc : parentPath current with
    | none => rw [hpc] at h; exact scanUnder_mono h
    | some repoRoot =>
      rw [hpc] at h
      injection h with h
      exact fun p hp => h ▸ mem_insertRepo.mpr (Or.inr hp)
  · exact scanUnder_mono h

/-- C10: the accumulator grows monotonically — the walk only inserts, so a
path present in the accumulator at any point of the walk is present in the
walk's final accumulator, and the final output sequence has exactly the
members of the final accumulator. -/
theorem scan_accumulator_monotone :
    (∀ (canon : FsPath → Option FsPath) (current : FsPath) (es : Entries)
        (repos res : List FsPath),
        scanEntries canon current es repos = .ok res → ∀ p ∈ repos, p ∈ res) ∧
    (∀ (canon : FsPath → Option FsPath) (rootArg : FsPath) (node : Node)
        (out : List FsPath),
        scan_git_repositories canon rootArg node = .ok out →
        ∃ root res, canon rootArg = some root ∧
          scan_directory canon root node [] = .ok res ∧ (∀ p, p ∈ res ↔ p ∈ out)) := by
  constructor
  · exact fun canon current es repos res h => scanEntries_mono es current repos res h
  · intro canon rootArg node out h
    cases hc : canon rootArg with
    | none =>
      rw [scan_git_repositories_none hc] at h
      exact absurd h (by simp)
    | some root =>
      rw [scan_git_repositories_some hc] at h
      cases hs : scan_directory canon root node [] with
      | error e => rw [hs] at h; exact absurd h (by simp [Except.map])
      | ok res =>
        rw [hs] at h
        refine ⟨root, res, rfl, hs, ?_⟩
        have hout : sortPaths res = out := by
          simpa [Except.map] using h
        intro p
        rw [← hout]
        exact mem_sortPaths.symm

theorem scan_accumulator_monotone_witness :
    ["kept"] ∈ [["kept"]] ∧
      scanEntries canonId []
          (.dir "a" .ok (.dir ".git" .ok .nil .nil) .nil) [["kept"]] =
        .ok [["a"], ["kept"]] ∧
      ["kept"] ∈ [["a"], ["kept"]] := by
  refine ⟨by simp, by rfl, ?_⟩
  exact scan_accumulator_monotone.1 canonId []
    (.dir "a" .ok (.dir ".git" .ok .nil .nil) .nil) [["kept"]] [["a"], ["kept"]]
    (by rfl) ["kept"] (by simp)

/-! The accumulator, a model of `HashSet`, never holds duplicates. -/

theorem scanEntries_nodup {canon : FsPath → Option FsPath} :
    ∀ (es : Entries) (current : FsPath) {repos res : List FsPath}, repos.Nodup →
      scanEntries canon current es repos = .ok res → res.Nodup := by
  intro es
  induction es with
  | nil =>
    intro current repos res hnd h
    injection h with h
    exact h ▸ hnd
  | fail rest ih => intro current repos res hnd h; simp [scanEntries_fail] at h
  | file n rest ih => intro current repos res hnd h; exact ih current hnd h
  | symlink n rest ih => intro current repos res hnd h; exact ih current hnd h
  | dir name status sub rest ihsub ihrest =>
    intro current repos res hnd h
    by_cases hname : name = gitMarker
    · rw [scanEntries_dir_git hname] at h
      exact ihrest current (insertRepo_nodup hnd) h
    · cases hin : insideRepo (canonOr canon (current ++ [name])) repos with
      | true =>
        rw [scanEntries_dir_inside hname hin] at h
        exact ihrest current hnd h
      | false =>
        cases status with
        | ok =>
          rw [scanEntries_dir_ok hname hin] at h
          cases hsub : scanEntries canon (current ++ [name]) sub repos with
          | error e => rw [hsub] at h; exact absurd h (by simp)
          | ok repos2 =>
            rw [hsub] at h
            exact ihrest current (ihsub _ hnd hsub) h
        | permDenied =>
          rw [scanEntries_dir_permDenied hname hin] at h
          exact ihrest current hnd h
        | otherErr =>
          rw [scanEntries_dir_otherErr hname hin] at h
          exact absurd h (by simp)

theorem scanUnder_nodup {canon : FsPath → Option FsPath} {current : FsPath} {node : Node}
    {repos res : List FsPath} (hnd : repos.Nodup)
    (h : scanUnder canon current node repos = .ok res) : res.Nodup := by
  unfold scanUnder at h
  split_ifs at h
  · injection h with h; exact h ▸ hnd
  · cases node with
    | file => exact absurd h (by simp)
    | symlink => exact absurd h (by simp)
    | dir status entries =>
      cases status with
      | ok => exact scanEntries_nodup entries current hnd h
      | permDenied => injection h with h; exact h ▸ hnd
      | otherErr => exact absurd h (by simp)

theorem scan_directory_nodup {canon : FsPath → Option FsPath} {current : FsPath}
    {node : Node} {repos res : List FsPath} (hnd : repos.Nodup)
    (h : scan_directory canon current node repos = .ok res) : res.Nodup := by
  unfold scan_directory at h
  split_ifs at h
  · cases hpc : parentPath current with
    | none => rw [hpc] at h; exact scanUnder_nodup hnd h
    | some repoRoot =>
      rw [hpc] at h
      injection h with h
      exact h ▸ insertRepo_nodup hnd
  · exact scanUnder_nodup hnd h

/-! Counting marker-directory occurrences in a tree. -/

/-- Number of directories named `.git` in a listing's subtree (at any depth,
regardless of listability). -/
def gitCountE : Entries → Nat
  | .nil => 0
  | .fail rest => gitCountE rest
  | .file _ rest => gitCountE rest
  | .symlink _ rest => gitCountE rest
  | .dir name _ sub rest =>
      (if name = gitMarker then 1 else 0) + gitCountE sub + gitCountE rest

/-- Number of directories named `.git` below a root node. -/
def gitCountN : Node → Nat
  | .dir _ es => gitCountE es
  | _ => 0

/-- Number of directories named `.git` in the tree rooted at `root`
(counting `root` itself when it is a `.git` directory). -/
def gitCount (root : FsPath) (node : Node) : Nat :=
  (if fileName root == some gitMarker && node.isDir then 1 else 0) + gitCountN node

theorem scanEntries_no_git {canon : FsPath → Option FsPath} :
    ∀ (es : Entries) (current : FsPath) {repos res : List FsPath}, gitCountE es = 0 →
      scanEntries canon current es repos = .ok res → res = repos := by
  intro es
  induction es with
  | nil =>
    intro current repos res h0 h
    injection h with h
    exact h.symm
  | fail rest ih => intro current repos res h0 h; simp [scanEntries_fail] at h
  | file n rest ih => intro current repos res h0 h; exact ih current h0 h
  | symlink n rest ih => intro current repos res h0 h; exact ih current h0 h
  | dir name status sub rest ihsub ihrest =>
    intro current repos res h0 h
    have hname : name ≠ gitMarker := by
      intro hEq
      simp [gitCountE, hEq] at h0
    have hsub0 : gitCountE sub = 0 ∧ gitCountE rest = 0 := by
      simp [gitCountE, hname] at h0
      exact h0
    cases hin : insideRepo (canonOr canon (current ++ [name])) repos with
    | true =>
      rw [scanEntries_dir_inside hname hin] at h
      exact ihrest current hsub0.2 h
    | false =>
      cases status with
      | ok =>
        rw [scanEntries_dir_ok hname hin] at h
        cases hsub : scanEntries canon (current ++ [name]) sub repos with
        | error e => rw [hsub] at h; exact absurd h (by simp)
        | ok repos2 =>
          rw [hsub] at h
          rw [ihrest current hsub0.2 h]
          exact ihsub _ hsub0.1 hsub
      | permDenied =>
        rw [scanEntries_dir_permDenied hname hin] at h
        exact ihrest current hsub0.2 h
      | otherErr =>
        rw [scanEntries_dir_otherErr hname hin] at h
        exact absurd h (by simp)

theorem scanUnder_no_git {canon : FsPath → Option FsPath} {root : FsPath}
    {node : Node} {repos res : List FsPath} (h0 : gitCount root node = 0)
    (h : scanUnder canon root node repos = .ok res) : res = repos := by
  unfold scanUnder at h
  split_ifs at h
  · injection h with h; exact h.symm
  · cases node with
    | file => exact absurd h (by simp)
    | symlink => exact absurd h (by simp)
    | dir status entries =>
      have he : gitCountE entries = 0 := by
        have h2 : gitCountN (.dir status entries) = 0 := by
          unfold gitCount at h0
          omega
        simpa [gitCountN] using h2
      cases status with
      | ok => exact scanEntries_no_git entries root he h
      | permDenied => injection h with h; exact h.symm
      | otherErr => exact absurd h (by simp)

theorem scan_directory_no_git {canon : FsPath → Option FsPath} {root : FsPath}
    {node : Node} {repos res : List FsPath} (h0 : gitCount root node = 0)
    (h : scan_directory canon root node repos = .ok res) : res = repos := by
  unfold scan_directory at h
  split_ifs at h with hm
  · exfalso
    unfold gitCount at h0
    rw [if_pos hm] at h0
    omega
  · exact scanUnder_no_git h0 h

/-- Example tree `proj-b/sub/.git`, `proj-a/.git` under the scanned root, in
that listing order. -/
def exTree : Node :=
  .dir .ok
    (.dir "proj-b" .ok (.dir "sub" .ok (.dir ".git" .ok .nil .nil) .nil)
      (.dir "proj-a" .ok (.dir ".git" .ok .nil .nil) .nil))

/-- C2: whenever the scan succeeds, the returned sequence is sorted in the
component-wise lexicographic path order and duplicate-free, and it is empty
when no `.git` directory exists anywhere in the tree rooted at the
canonical root. -/
theorem scan_sorted_nodup_empty {canon : FsPath → Option FsPath} {rootArg root : FsPath}
    {node : Node} {res : List FsPath} (hc : canon rootArg = some root)
    (h : scan_git_repositories canon rootArg node = .ok res) :
    List.Sorted pathLe res ∧ res.Nodup ∧ (gitCount root node = 0 → res = []) := by
  rw [scan_git_repositories_some hc] at h
  cases hs : scan_directory canon root node [] with
  | error e => rw [hs] at h; exact absurd h (by simp [Except.map])
  | ok res0 =>
    rw [hs] at h
    have hres : sortPaths res0 = res := by simpa [Except.map] using h
    subst hres
    refine ⟨sortPaths_sorted res0, sortPaths_nodup (scan_directory_nodup List.nodup_nil hs), ?_⟩
    intro h0
    rw [scan_directory_no_git h0 hs]
    rfl

theorem scan_sorted_nodup_empty_witness :
    List.Sorted pathLe [["proj-a"], ["proj-b", "sub"]] ∧
      List.Nodup [["proj-a"], ["proj-b", "sub"]] ∧
      (gitCount [] exTree = 0 → [["proj-a"], ["proj-b", "sub"]] = ([] : List FsPath)) :=
  @scan_sorted_nodup_empty canonId [] [] exTree [["proj-a"], ["proj-b", "sub"]] rfl (by rfl)

/-- C5: a subdirectory whose listing fails with permission-denied behaves
exactly like one with an empty listing (so it contributes no roots from its
own subtree and siblings are still processed); a listing failure of any
other kind aborts the scan with an error naming the subdirectory (when the
subdirectory is actually read, i.e. neither the marker shortcut nor the
containment shortcut fires); a directory entry that cannot be materialized
aborts the scan with an error naming the directory being listed. -/
theorem scan_read_failure_policy :
    (∀ (canon : FsPath → Option FsPath) (current : FsPath) (name : String)
        (sub rest : Entries) (repos : List FsPath),
        scanEntries canon current (.dir name .permDenied sub rest) repos =
          scanEntries canon current (.dir name .ok .nil rest) repos) ∧
    (∀ (canon : FsPath → Option FsPath) (current : FsPath) (name : String)
        (sub rest : Entries) (repos : List FsPath),
        name ≠ gitMarker →
        insideRepo (canonOr canon (current ++ [name])) repos = false →
        scanEntries canon current (.dir name .otherErr sub rest) repos =
          .error (.readDirErr (current ++ [name]))) ∧
    (∀ (canon : FsPath → Option FsPath) (current : FsPath) (rest : Entries)
        (repos : List FsPath),
        scanEntries canon current (.fail rest) repos = .error (.entryErr current)) := by
  refine ⟨?_, ?_, ?_⟩
  · intro canon current name sub rest repos
    by_cases hname : name = gitMarker
    · rw [scanEntries_dir_git hname, scanEntries_dir_git hname]
    · cases hin : insideRepo (canonOr canon (current ++ [name])) repos with
      | true => rw [scanEntries_dir_inside hname hin, scanEntries_dir_inside hname hin]
      | false =>
        rw [scanEntries_dir_permDenied hname hin, scanEntries_dir_ok hname hin]
        rfl
  · intro canon current name sub rest repos hname hin
    exact scanEntries_dir_otherErr hname hin
  · intro canon current rest repos
    rfl

theorem scan_read_failure_policy_witness :
    scanEntries canonId [] (.dir "bad" .otherErr .nil .nil) [] =
      .error (.readDirErr ["bad"]) :=
  scan_read_failure_policy.2.1 canonId [] "bad" .nil .nil []
    (by decide) rfl

/-! Symbolic links contribute nothing: pruning every symlink entry from the
tree leaves the scan's result unchanged. -/

/-- Remove every symlink entry from a listing, recursively. -/
def pruneSymlinksE : Entries → Entries
  | .nil => .nil
  | .fail rest => .fail (pruneSymlinksE rest)
  | .file n rest => .file n (pruneSymlinksE rest)
  | .symlink _ rest => pruneSymlinksE rest
  | .dir n st sub rest => .dir n st (pruneSymlinksE sub) (pruneSymlinksE rest)

/-- Remove every symlink entry from a tree, recursively. -/
def pruneSymlinksN : Node → Node
  | .dir st es => .dir st (pruneSymlinksE es)
  | n => n

theorem count_le_one_of_nodup : ∀ (l : List FsPath), l.Nodup → ∀ p, l.count p ≤ 1 := by
  intro l
  induction l with
  | nil => intro _ p; simp
  | cons a l ih =>
    intro h p
    rcases List.nodup_cons.mp h with ⟨ha, hl⟩
    by_cases hpa : p = a
    · subst hpa
      have hz : l.count p = 0 := List.count_eq_zero.mpr ha
      simp [List.count_cons, hz]
    · simpa [List.count_cons, Ne.symm hpa] using ih hl p

theorem scanEntries_pruneSymlinks {canon : FsPath → Option FsPath} :
    ∀ (es : Entries) (current : FsPath) (repos : List FsPath),
      scanEntries canon current (pruneSymlinksE es) repos =
        scanEntries canon current es repos := by
  intro es
  induction es with
  | nil => intro current repos; rfl
  | fail rest ih => intro current repos; rfl
  | file n rest ih => intro current repos; exact ih current repos
  | symlink n rest ih => intro current repos; exact ih current repos
  | dir name status sub rest ihsub ihrest =>
    intro current repos
    show scanEntries canon current
        (.dir name status (pruneSymlinksE sub) (pruneSymlinksE rest)) repos =
      scanEntries canon current (.dir name status sub rest) repos
    by_cases hname : name = gitMarker
    · rw [scanEntries_dir_git hname, scanEntries_dir_git hname, ihrest]
    · cases hin : insideRepo (canonOr canon (current ++ [name])) repos with
      | true =>
        rw [scanEntries_dir_inside hname hin, scanEntries_dir_inside hname hin, ihrest]
      | false =>
        cases status with
        | ok =>
          rw [scanEntries_dir_ok hname hin, scanEntries_dir_ok hname hin, ihsub]
          cases scanEntries canon (current ++ [name]) sub repos with
          | error e => rfl
          | ok repos2 => exact ihrest current repos2
        | permDenied =>
          rw [scanEntries_dir_permDenied hname hin, scanEntries_dir_permDenied hname hin,
            ihrest]
        | otherErr =>
          rw [scanEntries_dir_otherErr hname hin, scanEntries_dir_otherErr hname hin]

theorem scanUnder_pruneSymlinks (canon : FsPath → Option FsPath) (current : FsPath)
    (node : Node) (repos : List FsPath) :
    scanUnder canon current (pruneSymlinksN node) repos = scanUnder canon current node repos := by
  cases node with
  | file => rfl
  | symlink => rfl
  | dir status entries =>
    show scanUnder canon current (.dir status (pruneSymlinksE entries)) repos =
      scanUnder canon current (.dir status entries) repos
    unfold scanUnder
    cases status <;> simp [scanEntries_pruneSymlinks]

theorem scan_directory_pruneSymlinks (canon : FsPath → Option FsPath) (current : FsPath)
    (node : Node) (repos : List FsPath) :
    scan_directory canon current (pruneSymlinksN node) repos =
      scan_directory canon current node repos := by
  have hdir : (pruneSymlinksN node).isDir = node.isDir := by
    cases node <;> rfl
  unfold scan_directory
  rw [hdir]
  cases hpc : parentPath current <;>
    split_ifs <;> simp [hpc, scanUnder_pruneSymlinks]

/-- C6: the traversal neither follows nor inspects symbolic links — pruning
every symlink entry from the input tree leaves the result unchanged, a
symlink entry is skipped outright by the entry loop, and any repository root
occurs at most once in a successful result. -/
theorem scan_symlinks_skipped :
    (∀ (canon : FsPath → Option FsPath) (rootArg : FsPath) (node : Node),
        scan_git_repositories canon rootArg (pruneSymlinksN node) =
          scan_git_repositories canon rootArg node) ∧
    (∀ (canon : FsPath → Option FsPath) (current : FsPath) (n : String)
        (rest : Entries) (repos : List FsPath),
        scanEntries canon current (.symlink n rest) repos =
          scanEntries canon current rest repos) ∧
    (∀ (canon : FsPath → Option FsPath) (rootArg : FsPath) (node : Node)
        (res : List FsPath) (p : FsPath),
        scan_git_repositories canon rootArg node = .ok res → res.count p ≤ 1) := by
  refine ⟨?_, ?_, ?_⟩
  · intro canon rootArg node
    cases hc : canon rootArg with
    | none => rw [scan_git_repositories_none hc, scan_git_repositories_none hc]
    | some root =>
      rw [scan_git_repositories_some hc, scan_git_repositories_some hc,
        scan_directory_pruneSymlinks]
  · intro canon current n rest repos
    rfl
  · intro canon rootArg node res p h
    cases hc : canon rootArg with
    | none => rw [scan_git_repositories_none hc] at h; exact absurd h (by simp)
    | some root =>
      rw [scan_git_repositories_some hc] at h
      cases hs : scan_directory canon root node [] with
      | error e => rw [hs] at h; exact absurd h (by simp [Except.map])
      | ok res0 =>
        rw [hs] at h
        have hres : sortPaths res0 = res := by simpa [Except.map] using h
        have hnd : res.Nodup :=
          hres ▸ sortPaths_nodup (scan_directory_nodup List.nodup_nil hs)
        exact count_le_one_of_nodup res hnd p

/-- Example tree with a symlink entry `link` alongside a real repository
`target/.git`. -/
def exTreeSym : Node :=
  .dir .ok (.symlink "link" (.dir "target" .ok (.dir ".git" .ok .nil .nil) .nil))

theorem scan_symlinks_skipped_witness :
    scan_git_repositories canonId [] exTreeSym = .ok [["target"]] ∧
      List.count ["target"] [["target"]] ≤ 1 :=
  ⟨by rfl, scan_symlinks_skipped.2.2 canonId [] exTreeSym [["target"]] ["target"] (by rfl)⟩

/-! Visibility of marker directories: a marker is found exactly when every
strict ancestor inside the tree is a listable directory. -/

/-- Repository roots whose marker directory the walk can reach from a
listable directory at `current`: a `.git` directory entry all of whose
strict ancestors within the listing are `ok` directories. -/
def visibleE (canon : FsPath → Option FsPath) (current : FsPath) : Entries → List FsPath
  | .nil => []
  | .fail rest => visibleE canon current rest
  | .file _ rest => visibleE canon current rest
  | .symlink _ rest => visibleE canon current rest
  | .dir name status sub rest =>
    (if name = gitMarker then [canonOr canon current]
     else
       match status with
       | .ok => visibleE canon (current ++ [name]) sub
       | _ => []) ++ visibleE canon current rest

/-- Repository roots visible in the whole tree rooted at `root`. -/
def visibleGit (canon : FsPath → Option FsPath) (root : FsPath) (node : Node) :
    List FsPath :=
  if fileName root == some gitMarker && node.isDir then
    match parentPath root with
    | some pr => [canonOr canon pr]
    | none => []
  else
    match node with
    | .dir .ok es => visibleE canon root es
    | _ => []

theorem append_eq_single {α : Type} {l1 l2 : List α} {p : α} (h : l1 ++ l2 = [p]) :
    (l1 = [p] ∧ l2 = []) ∨ (l1 = [] ∧ l2 = [p]) := by
  cases l1 with
  | nil => exact Or.inr ⟨rfl, h⟩
  | cons a t =>
    rw [List.cons_append] at h
    injection h with h1 h2
    rcases List.append_eq_nil.mp h2 with ⟨ht, hl2⟩
    exact Or.inl ⟨by rw [h1, ht], hl2⟩

/-- A subtree with no visible marker inserts nothing. -/
theorem scanEntries_visEmpty {canon : FsPath → Option FsPath} :
    ∀ (es : Entries) (current : FsPath) {repos res : List FsPath},
      visibleE canon current es = [] →
      scanEntries canon current es repos = .ok res → res = repos := by
  intro es
  induction es with
  | nil =>
    intro current repos res hv h
    injection h with h
    exact h.symm
  | fail rest ih => intro current repos res hv h; simp [scanEntries_fail] at h
  | file n rest ih => intro current repos res hv h; exact ih current hv h
  | symlink n rest ih => intro current repos res hv h; exact ih current hv h
  | dir name status sub rest ihsub ihrest =>
    intro current repos res hv h
    simp only [visibleE] at hv
    rcases List.append_eq_nil.mp hv with ⟨hv1, hv2⟩
    by_cases hname : name = gitMarker
    · rw [if_pos hname] at hv1
      exact absurd hv1 (by simp)
    · rw [if_neg hname] at hv1
      cases hin : insideRepo (canonOr canon (current ++ [name])) repos with
      | true =>
        rw [scanEntries_dir_inside hname hin] at h
        exact ihrest current hv2 h
      | false =>
        cases status with
        | ok =>
          have hv1s : visibleE canon (current ++ [name]) sub = [] := hv1
          rw [scanEntries_dir_ok hname hin] at h
          cases hsub : scanEntries canon (current ++ [name]) sub repos with
          | error e => rw [hsub] at h; exact absurd h (by simp)
          | ok repos2 =>
            rw [hsub] at h
            rw [ihrest current hv2 h]
            exact ihsub _ hv1s hsub
        | permDenied =>
          rw [scanEntries_dir_permDenied hname hin] at h
          exact ihrest current hv2 h
        | otherErr =>
          rw [scanEntries_dir_otherErr hname hin] at h
          exact absurd h (by simp)

/-- A tree whose only visible marker root is `p`, scanned from an empty
accumulator, yields exactly `[p]`. -/
theorem scanEntries_visOne {canon : FsPath → Option FsPath} :
    ∀ (es : Entries) (current : FsPath) {p : FsPath} {res : List FsPath},
      visibleE canon current es = [p] →
      scanEntries canon current es [] = .ok res → res = [p] := by
  intro es
  induction es with
  | nil => intro current p res hv h; simp [visibleE] at hv
  | fail rest ih => intro current p res hv h; simp [scanEntries_fail] at h
  | file n rest ih => intro current p res hv h; exact ih current hv h
  | symlink n rest ih => intro current p res hv h; exact ih current hv h
  | dir name status sub rest ihsub ihrest =>
    intro current p res hv h
    simp only [visibleE] at hv
    rcases append_eq_single hv with ⟨hv1, hv2⟩ | ⟨hv1, hv2⟩
    · by_cases hname : name = gitMarker
      · rw [if_pos hname] at hv1
        injection hv1 with hp
        rw [scanEntries_dir_git hname] at h
        rw [show insertRepo (canonOr canon current) [] = [canonOr canon current] from rfl,
          hp] at h
        exact scanEntries_visEmpty rest current hv2 h
      · rw [if_neg hname] at hv1
        cases status with
        | ok =>
          have hv1s : visibleE canon (current ++ [name]) sub = [p] := hv1
          have hin : insideRepo (canonOr canon (current ++ [name])) [] = false := rfl
          rw [scanEntries_dir_ok hname hin] at h
          cases hsub : scanEntries canon (current ++ [name]) sub [] with
          | error e => rw [hsub] at h; exact absurd h (by simp)
          | ok repos2 =>
            rw [hsub] at h
            rw [ihsub _ hv1s hsub] at h
            exact scanEntries_visEmpty rest current hv2 h
        | permDenied => exact absurd (show ([] : List FsPath) = [p] from hv1) (by simp)
        | otherErr => exact absurd (show ([] : List FsPath) = [p] from hv1) (by simp)
    · by_cases hname : name = gitMarker
      · rw [if_pos hname] at hv1
        exact absurd hv1 (by simp)
      · rw [if_neg hname] at hv1
        cases status with
        | ok =>
          have hv1s : visibleE canon (current ++ [name]) sub = [] := hv1
          have hin : insideRepo (canonOr canon (current ++ [name])) [] = false := rfl
          rw [scanEntries_dir_ok hname hin] at h
          cases hsub : scanEntries canon (current ++ [name]) sub [] with
          | error e => rw [hsub] at h; exact absurd h (by simp)
          | ok repos2 =>
            rw [hsub] at h
            rw [scanEntries_visEmpty sub _ hv1s hsub] at h
            exact ihrest current hv2 h
        | permDenied =>
          have hin : insideRepo (canonOr canon (current ++ [name])) [] = false := rfl
          rw [scanEntries_dir_permDenied hname hin] at h
          exact ihrest current hv2 h
        | otherErr =>
          have hin : insideRepo (canonOr canon (current ++ [name])) [] = false := rfl
          rw [scanEntries_dir_otherErr hname hin] at h
          exact absurd h (by simp)

/-- C3 (amended): for a tree with exactly one marker-directory occurrence,
if the scan succeeds and that marker is visible — every strict ancestor of
the marker inside the tree is a listable directory, so the walk can reach it
— then the result is exactly the canonicalized parent of the marker
(falling back to the raw parent when canonicalization fails). -/
theorem scan_single_visible_marker {canon : FsPath → Option FsPath}
    {rootArg root : FsPath} {node : Node} {p : FsPath} {res : List FsPath}
    (hc : canon rootArg = some root)
    (hcount : gitCount root node = 1)
    (hvis : visibleGit canon root node = [p])
    (h : scan_git_repositories canon rootArg node = .ok res) :
    res = [p] := by
  rw [scan_git_repositories_some hc] at h
  cases hs : scan_directory canon root node [] with
  | error e => rw [hs] at h; exact absurd h (by simp [Except.map])
  | ok res0 =>
    rw [hs] at h
    have hres : sortPaths res0 = res := by simpa [Except.map] using h
    unfold scan_directory at hs
    unfold visibleGit at hvis
    split_ifs at hs hvis with hm
    · cases hpc : parentPath root with
      | none =>
        rw [hpc] at hvis
        exact absurd hvis (by simp)
      | some pr =>
        rw [hpc] at hs hvis
        injection hvis with hp
        injection hs with hs0
        rw [← hres, ← hs0,
          show insertRepo (canonOr canon pr) [] = [canonOr canon pr] from rfl, hp]
        rfl
    · cases node with
      | file => simp [scanUnder, insideRepo] at hs
      | symlink => simp [scanUnder, insideRepo] at hs
      | dir status entries =>
        cases status with
        | ok =>
          have hviss : visibleE canon root entries = [p] := hvis
          have hss : scanEntries canon root entries [] = .ok res0 := by
            simpa [scanUnder, insideRepo] using hs
          rw [← hres, scanEntries_visOne entries root hviss hss]
          rfl
        | permDenied => exact absurd (show ([] : List FsPath) = [p] from hvis) (by simp)
        | otherErr => exact absurd (show ([] : List FsPath) = [p] from hvis) (by simp)

/-- A tree whose only marker occurrence hides behind a permission-denied
directory. -/
def cexTreePerm : Node :=
  .dir .ok (.dir "blocked" .permDenied (.dir ".git" .ok .nil .nil) .nil)

/-- C3 counterexample: a tree with exactly one marker occurrence on which
the scan succeeds yet returns no repository root at all (the marker's parent
is unreadable), contradicting the claim as stated for arbitrary trees. -/
theorem scan_single_marker_cex :
    gitCount [] cexTreePerm = 1 ∧
      scan_git_repositories canonId [] cexTreePerm = .ok [] :=
  ⟨rfl, rfl⟩

/-- A tree with a single, fully reachable repository `proj/.git`. -/
def exTreeSingle : Node := .dir .ok (.dir "proj" .ok (.dir ".git" .ok .nil .nil) .nil)

theorem scan_single_visible_marker_witness :
    gitCount [] exTreeSingle = 1 ∧
      visibleGit canonId [] exTreeSingle = [["proj"]] ∧
      [["proj"]] = [["proj"]] :=
  ⟨rfl, rfl,
    @scan_single_visible_marker canonId [] [] exTreeSingle ["proj"]
      [["proj"]] rfl rfl rfl (by rfl)⟩

/-! Ancestor pairs in the output, and the listing-order condition under
which they cannot arise. -/

/-- No path in `l` is a strict ancestor (component prefix) of another. -/
def noAncestorPairs (l : List FsPath) : Prop :=
  ∀ p ∈ l, ∀ q ∈ l, p <+: q → p = q

/-- No directory entry named `.git` in the remainder of this one listing. -/
def noGitDirHere : Entries → Bool
  | .nil => true
  | .fail rest => noGitDirHere rest
  | .file _ rest => noGitDirHere rest
  | .symlink _ rest => noGitDirHere rest
  | .dir name _ _ rest => name != gitMarker && noGitDirHere rest

/-- In every directory listing of the tree, every `.git` directory entry
comes before every other directory entry. -/
def gitFirstE : Entries → Bool
  | .nil => true
  | .fail rest => gitFirstE rest
  | .file _ rest => gitFirstE rest
  | .symlink _ rest => gitFirstE rest
  | .dir name _ sub rest =>
    gitFirstE sub &&
      (if name = gitMarker then gitFirstE rest else noGitDirHere rest && gitFirstE rest)

/-- The names of the directory entries of one listing. -/
def dirNamesHere : Entries → List String
  | .nil => []
  | .fail rest => dirNamesHere rest
  | .file _ rest => dirNamesHere rest
  | .symlink _ rest => dirNamesHere rest
  | .dir name _ _ rest => name :: dirNamesHere rest

/-- Directory-entry names are distinct within every listing of the tree (as
on a real filesystem). -/
def uniqueDirNames : Entries → Bool
  | .nil => true
  | .fail rest => uniqueDirNames rest
  | .file _ rest => uniqueDirNames rest
  | .symlink _ rest => uniqueDirNames rest
  | .dir name _ sub rest =>
    !(dirNamesHere rest).contains name && uniqueDirNames sub && uniqueDirNames rest

/-- `gitFirstE` for the root node. -/
def gitFirstN : Node → Bool
  | .dir _ es => gitFirstE es
  | _ => true

/-- `uniqueDirNames` for the root node. -/
def uniqueDirNamesN : Node → Bool
  | .dir _ es => uniqueDirNames es
  | _ => true

/-- Nested repositories: `outer/vendor/inner/.git` is listed before
`outer/.git` in `outer`'s listing. -/
def cexTreeNested : Node :=
  .dir .ok (.dir "outer" .ok
    (.dir "vendor" .ok
      (.dir "inner" .ok (.dir ".git" .ok .nil .nil) .nil)
      (.dir ".git" .ok .nil .nil))
    .nil)

/-- C1 counterexample: when the subtree holding a nested repository is
listed before the outer `.git` entry, the inner root is discovered first and
the final output contains both the outer root and a root strictly inside
it — the no-ancestor-pair post-condition does depend on discovery order. -/
theorem scan_ancestor_pair_cex :
    scan_git_repositories canonId [] cexTreeNested =
        .ok [["outer"], ["outer", "vendor", "inner"]] ∧
      ¬ noAncestorPairs [["outer"], ["outer", "vendor", "inner"]] := by
  constructor
  · rfl
  · intro hno
    have h := hno ["outer"] (by simp) ["outer", "vendor", "inner"] (by simp)
      ⟨["vendor", "inner"], rfl⟩
    simp at h

/-! List helpers for the ancestor-pair induction. -/

theorem notPrefixAppendSelf {l : FsPath} {a : String} : ¬ (l ++ [a] <+: l) := by
  intro h
  have := h.length_le
  simp at this

theorem prefix_append_single {q l : FsPath} {a : String} (h : q <+: l ++ [a]) :
    q <+: l ∨ q = l ++ [a] := by
  rcases h with ⟨t, ht⟩
  cases t with
  | nil =>
    right
    simpa using ht
  | cons b t2 =>
    left
    have hlen : q.length + (b :: t2).length = l.length + 1 := by
      rw [← List.length_append, ht, List.length_append]
      simp
    have hle : q.length ≤ l.length := by
      simp only [List.length_cons] at hlen
      omega
    have hq : q = (l ++ [a]).take q.length := by
      rw [← ht]
      exact (List.take_left q (b :: t2)).symm
    rw [List.take_append_eq_append_take, Nat.sub_eq_zero_of_le hle] at hq
    simp only [List.take_zero, List.append_nil] at hq
    rw [hq]
    exact List.take_prefix q.length l

theorem appendSingleInjOfPrefix {l : FsPath} {a b : String}
    (h : l ++ [a] <+: l ++ [b]) : a = b := by
  have heq : l ++ [a] = l ++ [b] := h.eq_of_length (by simp)
  have := List.append_cancel_left heq
  injection this

theorem noGitDirHere_false_iff :
    ∀ es : Entries, noGitDirHere es = false ↔ gitMarker ∈ dirNamesHere es := by
  intro es
  induction es with
  | nil => simp [noGitDirHere, dirNamesHere]
  | fail rest ih => simpa [noGitDirHere, dirNamesHere] using ih
  | file n rest ih => simpa [noGitDirHere, dirNamesHere] using ih
  | symlink n rest ih => simpa [noGitDirHere, dirNamesHere] using ih
  | dir name status sub rest ihsub ihrest =>
    simp only [noGitDirHere, dirNamesHere, Bool.and_eq_false_iff, List.mem_cons]
    constructor
    · rintro (hn | hr)
      · left
        have hname : name = gitMarker := by simpa using hn
        exact hname.symm
      · right
        exact ihrest.mp hr
    · rintro (hn | hr)
      · left
        simp [← hn]
      · right
        exact ihrest.mpr hr

/-- Walk invariant: starting from an accumulator with no ancestor pairs in
which no root sits strictly inside the walk's region, and walking a tree in
which `.git` entries precede all other directory entries of their listing
and directory names are unique per listing, the accumulator keeps having no
ancestor pairs; moreover every new root lies in the walk's region. -/
theorem scanEntries_gitFirst_inv {canon : FsPath → Option FsPath} (hS : canonSound canon) :
    ∀ (es : Entries) (current : FsPath) (repos res : List FsPath),
      uniqueDirNames es = true →
      gitFirstE es = true →
      noAncestorPairs repos →
      (∀ q ∈ repos, q <+: current → q = current) →
      (∀ q ∈ repos, ∀ n ∈ dirNamesHere es, ¬ ((current ++ [n]) <+: q)) →
      (noGitDirHere es = false → ∀ q ∈ repos, current <+: q → q = current) →
      scanEntries canon current es repos = .ok res →
      noAncestorPairs res ∧
        ∀ q ∈ res, q ∈ repos ∨ q = current ∨
          ∃ n ∈ dirNamesHere es, (current ++ [n]) <+: q := by
  intro es
  induction es with
  | nil =>
    intro current repos res hU hG h1 h2 h3 h4 h
    injection h with h
    subst h
    exact ⟨h1, fun q hq => Or.inl hq⟩
  | fail rest ih =>
    intro current repos res hU hG h1 h2 h3 h4 h
    simp [scanEntries_fail] at h
  | file n rest ih =>
    intro current repos res hU hG h1 h2 h3 h4 h
    exact ih current repos res hU hG h1 h2 h3 h4 h
  | symlink n rest ih =>
    intro current repos res hU hG h1 h2 h3 h4 h
    exact ih current repos res hU hG h1 h2 h3 h4 h
  | dir name status sub rest ihsub ihrest =>
    intro current repos res hU hG h1 h2 h3 h4 h
    rw [show uniqueDirNames (.dir name status sub rest) =
      (!(dirNamesHere rest).contains name && uniqueDirNames sub && uniqueDirNames rest)
      from rfl] at hU
    simp only [Bool.and_eq_true] at hU
    rcases hU with ⟨⟨hNc, hUsub⟩, hUrest⟩
    have hNameNotMem : name ∉ dirNamesHere rest := by simpa using hNc
    rw [show gitFirstE (.dir name status sub rest) =
      (gitFirstE sub &&
        (if name = gitMarker then gitFirstE rest else noGitDirHere rest && gitFirstE rest))
      from rfl] at hG
    simp only [Bool.and_eq_true] at hG
    rcases hG with ⟨hGsub, hGrest0⟩
    by_cases hname : name = gitMarker
    · -- a `.git` entry: its parent `current` is inserted
      rw [if_pos hname] at hGrest0
      have hcc : canonOr canon current = current := canonOr_eq hS current
      rw [scanEntries_dir_git hname, hcc] at h
      have hTrig : noGitDirHere (Entries.dir name status sub rest) = false := by
        simp [noGitDirHere, hname]
      have h4c := h4 hTrig
      have h1i : noAncestorPairs (insertRepo current repos) := by
        intro p hp q hq hpq
        rcases mem_insertRepo.mp hp with rfl | hp2
        · rcases mem_insertRepo.mp hq with rfl | hq2
          · rfl
          · exact (h4c q hq2 hpq).symm
        · rcases mem_insertRepo.mp hq with rfl | hq2
          · exact h2 p hp2 hpq
          · exact h1 p hp2 q hq2 hpq
      have h2i : ∀ q ∈ insertRepo current repos, q <+: current → q = current := by
        intro q hq hpre
        rcases mem_insertRepo.mp hq with rfl | hq2
        · rfl
        · exact h2 q hq2 hpre
      have h3i : ∀ q ∈ insertRepo current repos, ∀ n ∈ dirNamesHere rest,
          ¬ ((current ++ [n]) <+: q) := by
        intro q hq n hn hpre
        rcases mem_insertRepo.mp hq with rfl | hq2
        · exact notPrefixAppendSelf hpre
        · exact h3 q hq2 n (List.mem_cons_of_mem _ hn) hpre
      have h4i : noGitDirHere rest = false →
          ∀ q ∈ insertRepo current repos, current <+: q → q = current := by
        intro hng q hq hpre
        exact absurd ((noGitDirHere_false_iff rest).mp hng) (hname ▸ hNameNotMem)
      rcases ihrest current (insertRepo current repos) res hUrest hGrest0 h1i h2i h3i h4i h
        with ⟨hA, hB⟩
      refine ⟨hA, ?_⟩
      intro q hq
      rcases hB q hq with hq2 | rfl | ⟨n, hn, hpre⟩
      · rcases mem_insertRepo.mp hq2 with rfl | hq3
        · exact Or.inr (Or.inl rfl)
        · exact Or.inl hq3
      · exact Or.inr (Or.inl rfl)
      · exact Or.inr (Or.inr ⟨n, List.mem_cons_of_mem _ hn, hpre⟩)
    · -- an ordinary directory entry
      rw [if_neg hname] at hGrest0
      simp only [Bool.and_eq_true] at hGrest0
      rcases hGrest0 with ⟨hNoGitRest, hGrest⟩
      have h4r : noGitDirHere rest = false → ∀ q ∈ repos, current <+: q → q = current := by
        intro hng
        rw [hng] at hNoGitRest
        exact absurd hNoGitRest (by simp)
      have h3r0 : ∀ q ∈ repos, ∀ n ∈ dirNamesHere rest, ¬ ((current ++ [n]) <+: q) :=
        fun q hq n hn => h3 q hq n (List.mem_cons_of_mem _ hn)
      cases hin : insideRepo (canonOr canon (current ++ [name])) repos with
      | true =>
        rw [scanEntries_dir_inside hname hin] at h
        rcases ihrest current repos res hUrest hGrest h1 h2 h3r0 h4r h with ⟨hA, hB⟩
        refine ⟨hA, ?_⟩
        intro q hq
        rcases hB q hq with hq2 | rfl | ⟨n, hn, hpre⟩
        · exact Or.inl hq2
        · exact Or.inr (Or.inl rfl)
        · exact Or.inr (Or.inr ⟨n, List.mem_cons_of_mem _ hn, hpre⟩)
      | false =>
        have hcc : canonOr canon (current ++ [name]) = current ++ [name] :=
          canonOr_eq hS _
        have hin2 : insideRepo (current ++ [name]) repos = false := by
          rw [← hcc]
          exact hin
        have hinf := insideRepo_eq_false.mp hin2
        cases status with
        | ok =>
          rw [scanEntries_dir_ok hname hin] at h
          cases hsub : scanEntries canon (current ++ [name]) sub repos with
          | error e => rw [hsub] at h; exact absurd h (by simp)
          | ok repos2 =>
            rw [hsub] at h
            have h2s : ∀ q ∈ repos, q <+: current ++ [name] → q = current ++ [name] := by
              intro q hq hpre
              by_contra hne
              exact hinf q hq ⟨hpre, fun he => hne he.symm⟩
            have h3s : ∀ q ∈ repos, ∀ n2 ∈ dirNamesHere sub,
                ¬ ((current ++ [name] ++ [n2]) <+: q) := by
              intro q hq n2 hn2 hpre
              exact h3 q hq name (List.mem_cons_self name _)
                ((List.prefix_append _ _).trans hpre)
            have h4s : noGitDirHere sub = false →
                ∀ q ∈ repos, (current ++ [name]) <+: q → q = current ++ [name] := by
              intro _ q hq hpre
              exact absurd hpre (h3 q hq name (List.mem_cons_self name _))
            rcases ihsub (current ++ [name]) repos repos2 hUsub hGsub h1 h2s h3s h4s hsub
              with ⟨hA2, hB2⟩
            have h2r : ∀ q ∈ repos2, q <+: current → q = current := by
              intro q hq hpre
              rcases hB2 q hq with hq3 | rfl | ⟨n2, hn2, hp2⟩
              · exact h2 q hq3 hpre
              · exact absurd hpre notPrefixAppendSelf
              · exact absurd (((List.prefix_append _ _).trans hp2).trans hpre)
                  notPrefixAppendSelf
            have h3r : ∀ q ∈ repos2, ∀ n ∈ dirNamesHere rest,
                ¬ ((current ++ [n]) <+: q) := by
              intro q hq n hn hpre
              rcases hB2 q hq with hq3 | rfl | ⟨n2, hn2, hp2⟩
              · exact h3 q hq3 n (List.mem_cons_of_mem _ hn) hpre
              · have hn_eq : n = name := appendSingleInjOfPrefix hpre
                rw [hn_eq] at hn
                exact hNameNotMem hn
              · have hpn : (current ++ [name]) <+: q := (List.prefix_append _ _).trans hp2
                rcases List.prefix_or_prefix_of_prefix hpre hpn with hcase | hcase
                · have hn_eq : n = name := appendSingleInjOfPrefix hcase
                  rw [hn_eq] at hn
                  exact hNameNotMem hn
                · have hn_eq : name = n := appendSingleInjOfPrefix hcase
                  rw [← hn_eq] at hn
                  exact hNameNotMem hn
            have h4r2 : noGitDirHere rest = false →
                ∀ q ∈ repos2, current <+: q → q = current := by
              intro hng
              rw [hng] at hNoGitRest
              exact absurd hNoGitRest (by simp)
            rcases ihrest current repos2 res hUrest hGrest hA2 h2r h3r h4r2 h with ⟨hA, hB⟩
            refine ⟨hA, ?_⟩
            intro q hq
            rcases hB q hq with hq2 | rfl | ⟨n, hn, hpre⟩
            · rcases hB2 q hq2 with hq3 | rfl | ⟨n2, hn2, hp2⟩
              · exact Or.inl hq3
              · exact Or.inr (Or.inr ⟨name, List.mem_cons_self name _, List.prefix_rfl⟩)
              · exact Or.inr (Or.inr ⟨name, List.mem_cons_self name _,
                  (List.prefix_append _ _).trans hp2⟩)
            · exact Or.inr (Or.inl rfl)
            · exact Or.inr (Or.inr ⟨n, List.mem_cons_of_mem _ hn, hpre⟩)
        | permDenied =>
          rw [scanEntries_dir_permDenied hname hin] at h
          rcases ihrest current repos res hUrest hGrest h1 h2 h3r0 h4r h with ⟨hA, hB⟩
          refine ⟨hA, ?_⟩
          intro q hq
          rcases hB q hq with hq2 | rfl | ⟨n, hn, hpre⟩
          · exact Or.inl hq2
          · exact Or.inr (Or.inl rfl)
          · exact Or.inr (Or.inr ⟨n, List.mem_cons_of_mem _ hn, hpre⟩)
        | otherErr =>
          rw [scanEntries_dir_otherErr hname hin] at h
          exact absurd h (by simp)

/-- C1 (amended): the no-ancestor-pair invariant does depend on discovery
order; it holds for every tree in which, within each directory listing, any
`.git` directory entry is listed before every other subdirectory (and
directory names are unique per listing, as on a real filesystem).  In
general a nested repository listed before the outer marker yields an
ancestor pair (see the counterexample). -/
theorem scan_no_ancestor_pairs_of_gitFirst {canon : FsPath → Option FsPath}
    {rootArg root : FsPath} {node : Node} {res : List FsPath}
    (hS : canonSound canon)
    (hc : canon rootArg = some root)
    (hU : uniqueDirNamesN node = true)
    (hG : gitFirstN node = true)
    (h : scan_git_repositories canon rootArg node = .ok res) :
    noAncestorPairs res := by
  rw [scan_git_repositories_some hc] at h
  cases hs : scan_directory canon root node [] with
  | error e => rw [hs] at h; exact absurd h (by simp [Except.map])
  | ok res0 =>
    rw [hs] at h
    have hres : sortPaths res0 = res := by simpa [Except.map] using h
    have hpairs : noAncestorPairs res0 := by
      unfold scan_directory at hs
      split_ifs at hs with hm
      · cases hpc : parentPath root with
        | none =>
          exfalso
          cases root with
          | nil => simp [fileName] at hm
          | cons a t => simp [parentPath] at hpc
        | some pr =>
          rw [hpc] at hs
          injection hs with hs0
          rw [← hs0]
          intro p hp q hq _
          rcases mem_insertRepo.mp hp with rfl | hp2
          · rcases mem_insertRepo.mp hq with rfl | hq2
            · rfl
            · simp at hq2
          · simp at hp2
      · cases node with
        | file => simp [scanUnder, insideRepo] at hs
        | symlink => simp [scanUnder, insideRepo] at hs
        | dir status entries =>
          have hUe : uniqueDirNames entries = true := hU
          have hGe : gitFirstE entries = true := hG
          cases status with
          | ok =>
            have hss : scanEntries canon root entries [] = .ok res0 := by
              simpa [scanUnder, insideRepo] using hs
            have hinv := scanEntries_gitFirst_inv hS entries root [] res0 hUe hGe
              (fun p hp => absurd hp (by simp))
              (fun q hq => absurd hq (by simp))
              (fun q hq => absurd hq (by simp))
              (fun _ q hq => absurd hq (by simp)) hss
            exact hinv.1
          | permDenied =>
            have hres0 : res0 = [] := by
              have hs2 : (Except.ok [] : Except ScanError (List FsPath)) = .ok res0 := by
                rw [← hs]
                simp [scanUnder, insideRepo]
              injection hs2 with hs0
              exact hs0.symm
            rw [hres0]
            intro p hp
            simp at hp
          | otherErr => simp [scanUnder, insideRepo] at hs
    rw [← hres]
    intro p hp q hq hpre
    exact hpairs p (mem_sortPaths.mp hp) q (mem_sortPaths.mp hq) hpre

/-- The nested-repository tree of the counterexample, with the `.git` entry
of `outer` listed before the `vendor` subtree. -/
def exTreeGitFirst : Node :=
  .dir .ok (.dir "outer" .ok
    (.dir ".git" .ok .nil
      (.dir "vendor" .ok
        (.dir "inner" .ok (.dir ".git" .ok .nil .nil) .nil)
        .nil))
    .nil)

theorem scan_no_ancestor_pairs_of_gitFirst_witness :
    uniqueDirNamesN exTreeGitFirst = true ∧ gitFirstN exTreeGitFirst = true ∧
      noAncestorPairs [["outer"]] :=
  ⟨rfl, rfl,
    @scan_no_ancestor_pairs_of_gitFirst canonId [] [] exTreeGitFirst [["outer"]]
      canonId_sound rfl rfl rfl (by rfl)⟩

/-! The project-list collaborators: `load_projects` and
`update_project_last_accessed`. -/

/-- A record of the projects file (`Project` in the source). -/
structure Project where
  path : FsPath
  name : Option String
  last_accessed : Option Nat
deriving DecidableEq, Repr

/-- Errors of `load_projects`, naming the projects file, mirroring the
`with_context` messages. -/
inductive LoadError where
  | readFailed (path : FsPath) : LoadError
  | parseFailed (path : FsPath) : LoadError
deriving DecidableEq, Repr

/-- Rust `load_projects`.  The environment is passed in: `file_path` is
`projects_file_path()` (the application-defined configuration location),
`fileExists` the result of `file_path.exists()`, `readFile` the outcome of
`std::fs::read_to_string`, and `parse` the TOML decoding of `ProjectsFile`
into its `projects` field. -/
def load_projects (file_path : FsPath) (fileExists : Bool) (readFile : Option String)
    (parse : String → Option (List Project)) : Except LoadError (List Project) :=
  if !fileExists then .ok []
  else
    match readFile with
    | none => .error (.readFailed file_path)
    | some content =>
      match parse content with
      | none => .error (.parseFailed file_path)
      | some projects => .ok projects

/-- C8: when the projects file does not exist at the configuration
location, `load_projects` returns an empty list successfully, regardless of
what reading or parsing would have produced. -/
theorem load_projects_missing_file :
    ∀ (file_path : FsPath) (readFile : Option String)
      (parse : String → Option (List Project)),
      load_projects file_path false readFile parse = .ok [] := by
  intro file_path readFile parse
  rfl

/-- The loop body of Rust `update_project_last_accessed`: walk the records,
set the timestamp of the first whose canonical path equals `cpath`, then
stop (`break`). -/
def updateGo (canon : FsPath → Option FsPath) (now : Nat) (cpath : FsPath) :
    List Project → List Project
  | [] => []
  | project :: rest =>
    if canonOr canon project.path = cpath then
      { project with last_accessed := some now } :: rest
    else
      project :: updateGo canon now cpath rest

/-- Rust `update_project_last_accessed`: `now` is the wall-clock time in
epoch seconds (`unwrap_or(0)` on clock failure), and the given `path` is
canonicalized once up front with the raw-path fallback. -/
def update_project_last_accessed (canon : FsPath → Option FsPath) (now : Nat)
    (projects : List Project) (path : FsPath) : List Project :=
  updateGo canon now (canonOr canon path) projects

/-- Index of the first record whose canonical path equals `cpath`. -/
def firstMatchIdx (canon : FsPath → Option FsPath) (cpath : FsPath) :
    List Project → Option Nat
  | [] => none
  | pr :: rest =>
    if canonOr canon pr.path = cpath then some 0
    else (firstMatchIdx canon cpath rest).map (· + 1)

/-- Replace only the `last_accessed` field of the record at index `i`,
leaving every other record, and the record's `path` and `name`, unchanged. -/
def setLastAccessed (now : Nat) : List Project → Nat → List Project
  | [], _ => []
  | pr :: rest, 0 => { pr with last_accessed := some now } :: rest
  | pr :: rest, i + 1 => pr :: setLastAccessed now rest i

/-- C9: `update_project_last_accessed` changes at most one record — the
first whose canonical path (both sides canonicalized with raw-path
fallback) equals the given path — and only that record's `last_accessed`
field, to the current time; it is a no-op when no record matches. -/
theorem update_project_last_accessed_spec :
    ∀ (canon : FsPath → Option FsPath) (now : Nat) (projects : List Project)
      (path : FsPath),
      update_project_last_accessed canon now projects path =
        match firstMatchIdx canon (canonOr canon path) projects with
        | none => projects
        | some i => setLastAccessed now projects i := by
  intro canon now projects path
  unfold update_project_last_accessed
  induction projects with
  | nil => rfl
  | cons pr rest ih =>
    show updateGo canon now (canonOr canon path) (pr :: rest) = _
    rw [updateGo]
    by_cases hm : canonOr canon pr.path = canonOr canon path
    · rw [if_pos hm]
      rw [show firstMatchIdx canon (canonOr canon path) (pr :: rest) =
        (if canonOr canon pr.path = canonOr canon path then some 0
         else (firstMatchIdx canon (canonOr canon path) rest).map (· + 1)) from rfl]
      rw [if_pos hm]
      rfl
    · rw [if_neg hm]
      rw [show firstMatchIdx canon (canonOr canon path) (pr :: rest) =
        (if canonOr canon pr.path = canonOr canon path then some 0
         else (firstMatchIdx canon (canonOr canon path) rest).map (· + 1)) from rfl]
      rw [if_neg hm, ih]
      cases firstMatchIdx canon (canonOr canon path) rest with
      | none => rfl
      | some i => rfl

end HelixProjects
